import Mathlib

/-
  Verification of the LLMs notebooks (fine-tuning with LoRA / IA3, quantization).

  The notebooks' Python helpers are shallowly embedded:
  * the nn.Module object graph is a finite tree `NNModule` with named children;
    dotted module paths are represented by their '.'-split component lists
    (attribute names in Python contain no '.'), and `key in name` substring
    matching is `strContains` on the dotted name;
  * tensors are exact: vectors are functions `Fin n → ℚ`, batched inputs are
    lists of rows; `F.linear` is `Flinear`;
  * Python exceptions are `Option` (for the pure development) or `Except ε`
    (for the error-propagation results);
  * the memory arithmetic of the quantization notebook is exact arithmetic
    over ℚ.
-/

/-! ## Dotted module paths and substring matching -/

/-- Python's `key in name` substring test, on the underlying character lists. -/
def strContains (name pat : String) : Bool :=
  decide (pat.data <:+: name.data)

/-- The dotted name of a component-list path, as built by
`torch.nn.Module.named_modules` (`prefix + ('.' if prefix else '') + name`). -/
def dottedName : List String → String
  | [] => ""
  | [a] => a
  | a :: b :: rest => a ++ "." ++ dottedName (b :: rest)

/-! ## The nn.Module object graph -/

/-- A PyTorch module: an abstract payload (standing for the module's own
parameters and identity) together with its named child modules, in
registration order. -/
inductive NNModule where
  | mk (data : ℕ) (children : List (String × NNModule))

/-- The payload of a module. -/
def NNModule.dataOf : NNModule → ℕ
  | .mk d _ => d

/-- The named children of a module. -/
def NNModule.childrenOf : NNModule → List (String × NNModule)
  | .mk _ cs => cs

/-- `getattr` on a child list: the first child with the given name. -/
def NNModule.attrLookup : List (String × NNModule) → String → Option NNModule
  | [], _ => none
  | (n, c) :: rest, a => if n = a then some c else NNModule.attrLookup rest a

/-- Python `getattr(module, a)`, restricted to module-valued attributes. -/
def NNModule.getattr : NNModule → String → Option NNModule
  | .mk _ cs, a => NNModule.attrLookup cs a

/-- `setattr` on a child list: replace the first child with the given name,
or append a new child (Python `setattr` always succeeds; an updated dict key
keeps its position, a new one is appended). -/
def NNModule.setChildList : List (String × NNModule) → String → NNModule →
    List (String × NNModule)
  | [], a, v => [(a, v)]
  | (n, c) :: rest, a, v =>
      if n = a then (a, v) :: rest else (n, c) :: NNModule.setChildList rest a v

/-- Python `setattr(module, a, v)` for a module value. -/
def NNModule.setattr : NNModule → String → NNModule → NNModule
  | .mk d cs, a, v => .mk d (NNModule.setChildList cs a v)

mutual

/-- `model.named_modules()`: the module itself under the empty path, then the
submodules of each child in order, with the child's name consed onto their
paths (pre-order, as in torch). -/
def NNModule.namedPaths : NNModule → List (List String × NNModule)
  | .mk d cs => ([], .mk d cs) :: NNModule.namedPathsChildren cs

/-- `named_modules` over a child list. -/
def NNModule.namedPathsChildren : List (String × NNModule) →
    List (List String × NNModule)
  | [] => []
  | (n, c) :: rest =>
      (NNModule.namedPaths c).map (fun pm => (n :: pm.1, pm.2)) ++
        NNModule.namedPathsChildren rest

end

mutual

/-- Well-formedness: at every node the child names are distinct (as Python
attribute dictionaries guarantee). -/
def NNModule.wfB : NNModule → Bool
  | .mk _ cs => decide ((cs.map Prod.fst).Nodup) && NNModule.wfListB cs

/-- Well-formedness of a child list. -/
def NNModule.wfListB : List (String × NNModule) → Bool
  | [] => true
  | (_, c) :: rest => NNModule.wfB c && NNModule.wfListB rest

end

/-- `match_submodules(model, key)`: the paths of the named submodules whose
dotted name contains `key` as a substring, in enumeration order. -/
def match_submodules (model : NNModule) (key : String) : List (List String) :=
  ((NNModule.namedPaths model).filter
    (fun pm => strContains (dottedName pm.1) key)).map Prod.fst

/-- `get_submodule(model, module_name)` (delegating to
`torch.nn.Module.get_submodule`): walk the split path through `getattr`,
`none` standing for the `AttributeError` raised on a missing attribute. -/
def get_submodule : NNModule → List String → Option NNModule
  | m, [] => some m
  | m, a :: rest => (m.getattr a).bind (fun c => get_submodule c rest)

/-- `replace_submodule(model, module_path, new_module)`: walk all but the last
component with `getattr` (a missing attribute raises, hence `none`), then
`setattr` the last component of the parent reached. -/
def replace_submodule : NNModule → List String → NNModule → Option NNModule
  | _, [], _ => none
  | m, [a], v => some (m.setattr a v)
  | m, a :: b :: rest, v =>
      (m.getattr a).bind
        (fun c => (replace_submodule c (b :: rest) v).map (fun c2 => m.setattr a c2))

/-- The inner loop of `inject_adapter` over the precomputed matching paths of
one key: skip paths already processed, `get_submodule`, apply the adapter
(`.to(device)` is a device move and does not change values), replace, record
the path as processed.  `none` models the `AttributeError` escaping the call. -/
def inject_fold (adapter_fn : NNModule → NNModule) :
    NNModule → List (List String) → List (List String) →
    Option (NNModule × List (List String))
  | m, [], pr => some (m, pr)
  | m, p :: ps, pr =>
      if p ∈ pr then inject_fold adapter_fn m ps pr
      else
        match get_submodule m p with
        | none => none
        | some cur =>
            match replace_submodule m p (adapter_fn cur) with
            | none => none
            | some m2 => inject_fold adapter_fn m2 ps (p :: pr)

/-- The outer loop of `inject_adapter` over the keys: for each key the matching
paths are recomputed on the current (already partially rewritten) model. -/
def inject_go (adapter_fn : NNModule → NNModule) :
    NNModule → List String → List (List String) → Option NNModule
  | m, [], _ => some m
  | m, k :: ks, pr =>
      match inject_fold adapter_fn m (match_submodules m k) pr with
      | none => none
      | some (m2, pr2) => inject_go adapter_fn m2 ks pr2

/-- `inject_adapter(model, match_on, adapter_fn)` of the IA3 notebook
(the variant keeping a `processed_modules` set). -/
def inject_adapter (model : NNModule) (match_on : List String)
    (adapter_fn : NNModule → NNModule) : Option NNModule :=
  inject_go adapter_fn model match_on []

/-- Two paths are incomparable when neither is a prefix of the other
(in particular they are distinct). -/
def PathIncomp (p q : List String) : Prop :=
  ¬ p <+: q ∧ ¬ q <+: p

instance : DecidableRel PathIncomp := fun p q => by
  unfold PathIncomp; infer_instance

/-! ## Concrete module fixtures -/

/-- A model whose submodule `a` itself has a submodule `a`: the key `"a"`
matches both `a` and `a.a`. -/
def c2_model : NNModule := .mk 0 [("a", .mk 1 [("a", .mk 2 [])])]

/-- An adapter constructor in the style of `IA3Adapter1`/`LoRAAdapter`: a fresh
module wrapping the old one as its `existing_layer` child. -/
def wrap_adapter : NNModule → NNModule :=
  fun m => .mk 100 [("existing_layer", m)]

/-- A model with two incomparable submodules matching the key `"ka"`. -/
def c2w_model : NNModule :=
  .mk 0 [("ka", .mk 1 []), ("b", .mk 2 [("ka", .mk 3 [])])]

/-- A model with one submodule matching `"k"` and one untouched submodule. -/
def c5_model : NNModule := .mk 0 [("k", .mk 1 []), ("b", .mk 2 [])]

/-- The result of injecting `wrap_adapter` for key `"k"` into `c5_model`. -/
def c5_result : NNModule :=
  .mk 0 [("k", .mk 100 [("existing_layer", .mk 1 [])]), ("b", .mk 2 [])]

/-- A two-level model for the replace/get round trip. -/
def c10_model : NNModule := .mk 0 [("a", .mk 1 [("b", .mk 2 [])])]

/-! ## Exact tensors and `F.linear` -/

/-- `torch.nn.functional.linear(x, W, b)` on one row: `x Wᵀ + b`, the bias
being optional (`None` adds nothing). -/
def Flinear {n m : ℕ} (W : Fin m → Fin n → ℚ) (b : Option (Fin m → ℚ))
    (x : Fin n → ℚ) : Fin m → ℚ :=
  fun i => (∑ j, W i j * x j) + (match b with | some bv => bv i | none => 0)

/-- Matrix product `A @ B`. -/
def matMul {a b c : ℕ} (A : Fin a → Fin b → ℚ) (B : Fin b → Fin c → ℚ) :
    Fin a → Fin c → ℚ :=
  fun i j => ∑ k, A i k * B k j

/-- `torch.diag(v)`: the diagonal matrix of a vector. -/
def diagMat {k : ℕ} (v : Fin k → ℚ) : Fin k → Fin k → ℚ :=
  fun i j => if i = j then v i else 0

/-- A linear layer applied to a 3-D batched input, one row per (batch,
position) pair: the broadcast of `F.linear` over the two leading dimensions. -/
def linear_forward_3d {n m : ℕ} (W : Fin m → Fin n → ℚ) (b : Option (Fin m → ℚ))
    (x : List (List (Fin n → ℚ))) : List (List (Fin m → ℚ)) :=
  x.map (fun row => row.map (Flinear W b))

/-! ## IA3 (both notebook implementations) -/

/-- `IA3Adapter1.forward` with `is_feedforward = False`: the wrapped layer's
output multiplied elementwise (`torch.mul`, broadcasting the `(1, out)`
scaling vector over the leading dimensions) by `ia3_lw`. -/
def IA3Adapter1_forward_act {n m : ℕ} (existing_layer : (Fin n → ℚ) → Fin m → ℚ)
    (ia3_lw : Fin m → ℚ) (x : Fin n → ℚ) : Fin m → ℚ :=
  fun i => existing_layer x i * ia3_lw i

/-- `IA3Adapter1.forward` with `is_feedforward = True`: the input multiplied
elementwise by the `(1, in)` scaling vector before the wrapped layer. -/
def IA3Adapter1_forward_ff {n m : ℕ} (existing_layer : (Fin n → ℚ) → Fin m → ℚ)
    (ia3_lw : Fin n → ℚ) (x : Fin n → ℚ) : Fin m → ℚ :=
  existing_layer (fun j => x j * ia3_lw j)

/-- `IA3Adapter1.__init__` / `IA3Adapter2.__init__` initialize `ia3_lw` to
`torch.ones` (re-asserted by `nn.init.ones_`). -/
def ia3_init_lw (k : ℕ) : Fin k → ℚ := fun _ => 1

/-- `IA3Adapter2.get_equivalent_weight`, `is_feedforward = False`:
`torch.diag(ia3_lw.view(-1)) @ W` where `W` is the wrapped layer's weight
(`get_weight` is part of the external CLAM abstraction; modelled from the
spec as returning the wrapped linear layer's weight). -/
def IA3Adapter2_equivalent_weight_act {n m : ℕ} (W : Fin m → Fin n → ℚ)
    (ia3_lw : Fin m → ℚ) : Fin m → Fin n → ℚ :=
  matMul (diagMat ia3_lw) W

/-- `IA3Adapter2.get_equivalent_weight`, `is_feedforward = True`:
`W @ torch.diag(ia3_lw.view(-1))`. -/
def IA3Adapter2_equivalent_weight_ff {n m : ℕ} (W : Fin m → Fin n → ℚ)
    (ia3_lw : Fin n → ℚ) : Fin m → Fin n → ℚ :=
  matMul W (diagMat ia3_lw)

/-- `IA3Adapter2.get_equivalent_bias`, `is_feedforward = False`:
`torch.mul(b, ia3_lw.squeeze())` when the wrapped layer has a bias, `None`
otherwise (`get_bias` modelled from the spec as the wrapped layer's bias). -/
def IA3Adapter2_equivalent_bias_act {m : ℕ} (b : Option (Fin m → ℚ))
    (ia3_lw : Fin m → ℚ) : Option (Fin m → ℚ) :=
  b.map (fun bv i => bv i * ia3_lw i)

/-- `IA3Adapter2.forward`, `is_feedforward = False`: a single `F.linear` with
the folded weight and bias. -/
def IA3Adapter2_forward_act {n m : ℕ} (W : Fin m → Fin n → ℚ)
    (b : Option (Fin m → ℚ)) (ia3_lw : Fin m → ℚ) (x : Fin n → ℚ) : Fin m → ℚ :=
  Flinear (IA3Adapter2_equivalent_weight_act W ia3_lw)
    (IA3Adapter2_equivalent_bias_act b ia3_lw) x

/-- `IA3Adapter2.forward`, `is_feedforward = True`: the folded weight with the
wrapped layer's bias unchanged. -/
def IA3Adapter2_forward_ff {n m : ℕ} (W : Fin m → Fin n → ℚ)
    (b : Option (Fin m → ℚ)) (ia3_lw : Fin n → ℚ) (x : Fin n → ℚ) : Fin m → ℚ :=
  Flinear (IA3Adapter2_equivalent_weight_ff W ia3_lw) b x

/-! ## LoRA -/

/-- `LoRAAdapter.forward` in the `r > 0` branch, the wrapped layer being a
linear layer with weight `W` and optional bias `b`.  Faithful steps on a 3-D
input:  `x.view(-1, in_features)` is `List.flatten`; `.to(torch.bfloat16)` is
exact here; `lora_out = (lora_B @ (lora_A @ x.T)).T * scaling` rowwise;
`lora_dropout` with probability `0.` is the identity (the case the claims
address); the result is `existing_layer(x) + lora_out` on the flattened
rows. -/
def LoRAAdapter_forward_pos {r nIn nOut : ℕ} (lora_A : Fin r → Fin nIn → ℚ)
    (lora_B : Fin nOut → Fin r → ℚ) (scaling : ℚ) (W : Fin nOut → Fin nIn → ℚ)
    (b : Option (Fin nOut → ℚ)) (x : List (List (Fin nIn → ℚ))) :
    List (Fin nOut → ℚ) :=
  let flat := x.flatten
  let lora_out := flat.map
    (fun v oi => scaling * ∑ k, lora_B oi k * ∑ j, lora_A k j * v j)
  List.zipWith (fun v l oi => Flinear W b v oi + l oi) flat lora_out

/-- `LoRAAdapter.__init__` sets `scaling = lora_alpha / r`. -/
def LoRAAdapter_scaling (lora_alpha r : ℕ) : ℚ := (lora_alpha : ℚ) / (r : ℚ)

/-! ## `mark_only_lora_as_trainable` -/

/-- The model's named parameters as a flat association of parameter name to
its `requires_grad` flag (no parameter sharing, as in the notebook models). -/
def mark_only_lora_as_trainable (ps : List (String × Bool)) :
    List (String × Bool) :=
  -- first loop: freeze every parameter
  let frozen := ps.map (fun p => (p.1, false))
  -- second loop: re-enable gradients for names containing lora_A or lora_B
  frozen.map (fun p =>
    if strContains p.1 "lora_A" || strContains p.1 "lora_B" then (p.1, true)
    else p)

/-! ## Quantization configuration (Quantization notebook) -/

/-- The two quantization configurations the notebook distinguishes:
`float_qparams_weight_only_qconfig` for embeddings, and
`torch.ao.quantization.get_default_qat_qconfig('fbgemm')` as the default.
Modelled from the spec: both are opaque framework constants; only their
distinctness and assignment matter here. -/
inductive QConfig where
  | weightOnlyEmbedding
  | fbgemmDefault
deriving DecidableEq

/-- A module of the quantization notebook: whether it is an instance of
`torch.nn.Embedding`, its `qconfig` attribute (absent before assignment), and
its named children. -/
inductive QModule where
  | mk (isEmbedding : Bool) (qconfig : Option QConfig)
      (children : List (String × QModule))

/-- Whether the module is an `nn.Embedding` instance. -/
def QModule.isEmbeddingOf : QModule → Bool
  | .mk e _ _ => e

/-- The `qconfig` attribute of the module, if assigned. -/
def QModule.qconfigOf : QModule → Option QConfig
  | .mk _ q _ => q

mutual

/-- `named_modules()` enumeration of a quantization-notebook model. -/
def QModule.namedList : QModule → List QModule
  | .mk e q cs => .mk e q cs :: QModule.namedListChildren cs

/-- `named_modules()` over a child list. -/
def QModule.namedListChildren : List (String × QModule) → List QModule
  | [] => []
  | (_, c) :: rest => QModule.namedList c ++ QModule.namedListChildren rest

end

mutual

/-- `set_qconfig_for_model(model)`: every named submodule gets its `qconfig`
attribute assigned from its own type only, so the imperative loop is a map
over the module tree. -/
def set_qconfig_for_model : QModule → QModule
  | .mk e _ cs =>
      .mk e (some (if e then QConfig.weightOnlyEmbedding else QConfig.fbgemmDefault))
        (set_qconfig_for_children cs)

/-- `set_qconfig_for_model` over a child list. -/
def set_qconfig_for_children : List (String × QModule) → List (String × QModule)
  | [] => []
  | (n, c) :: rest => (n, set_qconfig_for_model c) :: set_qconfig_for_children rest

end

/-- The qconfig contract of claim C6 for one submodule: the assigned qconfig
is the weight-only embedding config exactly on `nn.Embedding` instances and
the default fbgemm QAT config otherwise. -/
def qconfigAssigned (sub : QModule) : Bool :=
  decide (sub.qconfigOf =
    some (if sub.isEmbeddingOf then QConfig.weightOnlyEmbedding
          else QConfig.fbgemmDefault))

/-! ## Exception flow (`Except` embeddings) -/

/-- `inject_adapter` with an adapter that can raise: the inner loop over one
key's matching paths.  A missing attribute raises `attrErr`
(`AttributeError`); an adapter exception propagates as is. -/
def inject_foldE {ε : Type} (adapter_fn : NNModule → Except ε NNModule)
    (attrErr : ε) :
    NNModule → List (List String) → List (List String) →
    Except ε (NNModule × List (List String))
  | m, [], pr => .ok (m, pr)
  | m, p :: ps, pr =>
      if p ∈ pr then inject_foldE adapter_fn attrErr m ps pr
      else
        match get_submodule m p with
        | none => .error attrErr
        | some cur =>
            match adapter_fn cur with
            | .error e => .error e
            | .ok nm =>
                match replace_submodule m p nm with
                | none => .error attrErr
                | some m2 => inject_foldE adapter_fn attrErr m2 ps (p :: pr)

/-- `inject_adapter` with a raising adapter: the outer loop over the keys. -/
def inject_goE {ε : Type} (adapter_fn : NNModule → Except ε NNModule)
    (attrErr : ε) :
    NNModule → List String → List (List String) → Except ε NNModule
  | m, [], _ => .ok m
  | m, k :: ks, pr =>
      match inject_foldE adapter_fn attrErr m (match_submodules m k) pr with
      | .error e => .error e
      | .ok (m2, pr2) => inject_goE adapter_fn attrErr m2 ks pr2

/-- `inject_adapter(model, match_on, adapter_fn)` in the exception monad: the
function installs no handler, so callee exceptions reach the caller. -/
def inject_adapterE {ε : Type} (model : NNModule) (match_on : List String)
    (adapter_fn : NNModule → Except ε NNModule) (attrErr : ε) :
    Except ε NNModule :=
  inject_goE adapter_fn attrErr model match_on []

/-- Python `range(0, seq_len, stride)` for a positive stride (the notebook
calls `calc_perplexity` with `stride = 256`; a zero stride raises in Python
and is outside this model). -/
def strideRange (seq_len stride : ℕ) : List ℕ :=
  (List.range ((seq_len + stride - 1) / stride)).map (· * stride)

/-- The loop body of `calc_perplexity`: slice the encodings, build the target
ids (`target_ids[:, :-trg_len] = -100`), call the model (which may raise),
collect the loss, and stop early once `end_loc` reaches the end. -/
def calc_perplexity_loop {ε : Type} (modelFn : List ℤ → List ℤ → Except ε ℚ)
    (enc : List ℤ) (max_length : ℕ) :
    List ℕ → ℕ → List ℚ → Except ε (List ℚ)
  | [], _, nlls => .ok nlls
  | begin_loc :: rest, prev_end_loc, nlls =>
      let end_loc := min (begin_loc + max_length) enc.length
      let trg_len := end_loc - prev_end_loc
      let input_ids := (enc.drop begin_loc).take (end_loc - begin_loc)
      let target_ids :=
        (input_ids.take (input_ids.length - trg_len)).map (fun _ => (-100 : ℤ))
          ++ input_ids.drop (input_ids.length - trg_len)
      match modelFn input_ids target_ids with
      | .error e => .error e
      | .ok nll =>
          if end_loc = enc.length then .ok (nlls ++ [nll])
          else calc_perplexity_loop modelFn enc max_length rest end_loc
            (nlls ++ [nll])

/-- `calc_perplexity(model, encodings, stride)`: `max_length = 1024`; the
final `torch.exp(torch.stack(nlls).mean())` is the framework callee
`expMean`.  No exception handler appears anywhere in the body. -/
def calc_perplexity {ε : Type} (modelFn : List ℤ → List ℤ → Except ε ℚ)
    (expMean : List ℚ → ℚ) (enc : List ℤ) (stride : ℕ) : Except ε ℚ :=
  match calc_perplexity_loop modelFn enc 1024 (strideRange enc.length stride) 0 [] with
  | .error e => .error e
  | .ok nlls => .ok (expMean nlls)

/-- One epoch of `train_model`: fold the batch step (tokenizer + forward +
backward, the framework callees that may raise) over the loader, accumulating
`total_loss`. -/
def train_model_epoch {ε β : Type} (step : β → Except ε ℚ) :
    List β → ℚ → Except ε ℚ
  | [], total => .ok total
  | b :: rest, total =>
      match step b with
      | .error e => .error e
      | .ok loss => train_model_epoch step rest (total + loss)

/-- `train_model(model, train_dataloader, num_epochs)`: run the epochs in
order and report each epoch's average loss.  No handler wraps the loops. -/
def train_model {ε β : Type} (step : β → Except ε ℚ) (batches : List β) :
    ℕ → Except ε (List ℚ)
  | 0 => .ok []
  | Nat.succ n =>
      match train_model_epoch step batches 0 with
      | .error e => .error e
      | .ok total =>
          match train_model step batches n with
          | .error e => .error e
          | .ok rest => .ok ((total / (batches.length : ℚ)) :: rest)

/-! ## Memory arithmetic (Quantization / IA3 memory analysis) -/

/-- The tensor-memory computation of the quantization notebook:
`tensor.element_size() * tensor.nelement()` in bytes. -/
def tensor_memory_bytes (element_size nelement : ℕ) : ℕ :=
  element_size * nelement

/-- `calculate_memory_kv_down_proj(batch_size, seq_len, hidden_dim,
intermediate_dim)`.  The body reads `hidden_dim_kv`, a global that is not
among the parameters; it is made explicit here as the ambient-state argument
`hidden_dim_kv`. -/
def calculate_memory_kv_down_proj (hidden_dim_kv : ℚ)
    (batch_size seq_len hidden_dim intermediate_dim : ℚ) : ℚ :=
  let bytes_per_float : ℚ := 2
  let kv_proj_memory_bytes :=
    batch_size * seq_len * hidden_dim_kv * bytes_per_float * 2
  let down_proj_memory_bytes :=
    (batch_size * seq_len * intermediate_dim + batch_size * seq_len * hidden_dim)
      * bytes_per_float
  let total_memory_bytes := kv_proj_memory_bytes + down_proj_memory_bytes
  total_memory_bytes / (1024 ^ 3)

/-! ## Supporting fixtures for LoRA (claim C4) -/

/-- A 2 × 3 batch of rows for the one-dimensional LoRA instance. -/
def c4_input : List (List (Fin 1 → ℚ)) :=
  [[fun _ => 1, fun _ => 1, fun _ => 1], [fun _ => 1, fun _ => 1, fun _ => 1]]

/-! # Theorems -/

/-! ## Claim C8: the byte counts are run-dependent -/

/-- Claim C8: the byte counts are not determined by the arguments alone: two
runs of `calculate_memory_kv_down_proj` with the very arguments of the
notebook (`batch_size = 32`, `seq_len = 216`, `hidden_dim = 2048`,
`intermediate_dim = 16384`) can differ, because the body reads the global
`hidden_dim_kv`, which is not among the arguments. -/
theorem calculate_memory_kv_down_proj_run_dependent :
    ∃ g g' : ℚ,
      calculate_memory_kv_down_proj g 32 216 2048 16384 ≠
        calculate_memory_kv_down_proj g' 32 216 2048 16384 := by
  refine ⟨256, 512, ?_⟩
  norm_num [calculate_memory_kv_down_proj]

/-! ## Claim C3: only the LoRA matrices stay trainable -/

/-- Claim C3: after `mark_only_lora_as_trainable`, a parameter requires
gradients exactly when its name contains `lora_A` or `lora_B`; every other
(pretrained) parameter is frozen. -/
theorem mark_only_lora_as_trainable_spec (ps : List (String × Bool)) :
    mark_only_lora_as_trainable ps =
      ps.map (fun p =>
        (p.1, strContains p.1 "lora_A" || strContains p.1 "lora_B")) := by
  unfold mark_only_lora_as_trainable
  rw [List.map_map]
  refine List.map_congr_left ?_
  intro p _
  cases hA : strContains p.1 "lora_A" <;> cases hB : strContains p.1 "lora_B" <;>
    simp [hA, hB]

/-! ## Claim C9: a fresh IA3Adapter1 is the identity wrapper -/

/-- Claim C9: immediately after `__init__` (which sets `ia3_lw` to all ones),
`IA3Adapter1.forward` coincides with the wrapped layer in both modes, for an
arbitrary wrapped layer and input. -/
theorem ia3_adapter1_fresh_identity {n m : ℕ}
    (existing_layer : (Fin n → ℚ) → Fin m → ℚ) (x : Fin n → ℚ) :
    IA3Adapter1_forward_act existing_layer (ia3_init_lw m) x = existing_layer x ∧
    IA3Adapter1_forward_ff existing_layer (ia3_init_lw n) x = existing_layer x := by
  constructor
  · funext i
    simp [IA3Adapter1_forward_act, ia3_init_lw]
  · unfold IA3Adapter1_forward_ff ia3_init_lw
    simp

/-! ## Claim C1: the two IA3 implementations agree -/

/-- A row of `torch.diag(lw) @ W` is the corresponding row of `W` scaled. -/
theorem diag_matMul_row {m n : ℕ} (lw : Fin m → ℚ) (W : Fin m → Fin n → ℚ)
    (i : Fin m) (j : Fin n) :
    matMul (diagMat lw) W i j = lw i * W i j := by
  unfold matMul diagMat
  rw [Finset.sum_eq_single i]
  · simp
  · intro k _ hk
    simp [Ne.symm hk]
  · simp

/-- A column of `W @ torch.diag(lw)` is the corresponding column of `W`
scaled. -/
theorem matMul_diag_col {m n : ℕ} (lw : Fin n → ℚ) (W : Fin m → Fin n → ℚ)
    (i : Fin m) (j : Fin n) :
    matMul W (diagMat lw) i j = W i j * lw j := by
  unfold matMul diagMat
  rw [Finset.sum_eq_single j]
  · simp
  · intro k _ hk
    simp [hk]
  · simp

/-- Claim C1: for a wrapped linear layer with weight `W` and optional bias
`b`, any scaling vector and any input, `IA3Adapter1.forward` and
`IA3Adapter2.forward` agree in both modes: scaling the activations equals the
single linear map with weight `diag(ia3_lw) @ W` and bias `ia3_lw ⊙ b`, and
scaling the input equals the single linear map with weight
`W @ diag(ia3_lw)` and bias `b`. -/
theorem ia3_adapter_implementations_equivalent {n m : ℕ}
    (W : Fin m → Fin n → ℚ) (b : Option (Fin m → ℚ)) :
    (∀ (lw : Fin m → ℚ) (x : Fin n → ℚ),
      IA3Adapter1_forward_act (Flinear W b) lw x =
        IA3Adapter2_forward_act W b lw x) ∧
    (∀ (lw : Fin n → ℚ) (x : Fin n → ℚ),
      IA3Adapter1_forward_ff (Flinear W b) lw x =
        IA3Adapter2_forward_ff W b lw x) := by
  constructor
  · intro lw x
    funext i
    cases b with
    | none =>
        simp [IA3Adapter1_forward_act, IA3Adapter2_forward_act,
          IA3Adapter2_equivalent_weight_act, IA3Adapter2_equivalent_bias_act,
          Flinear, diag_matMul_row, Finset.sum_mul, Finset.mul_sum,
          mul_comm, mul_assoc, mul_left_comm]
    | some bv =>
        simp only [IA3Adapter1_forward_act, IA3Adapter2_forward_act,
          IA3Adapter2_equivalent_weight_act, IA3Adapter2_equivalent_bias_act,
          Flinear, Option.map_some, diag_matMul_row]
        rw [add_mul, Finset.sum_mul]
        congr 1
        refine Finset.sum_congr rfl ?_
        intro j _
        ring
  · intro lw x
    funext i
    unfold IA3Adapter1_forward_ff IA3Adapter2_forward_ff
      IA3Adapter2_equivalent_weight_ff Flinear
    simp only [matMul_diag_col]
    congr 1
    refine Finset.sum_congr rfl ?_
    intro j _
    ring

/-! ## Claim C6: qconfig assignment by module type -/

mutual

/-- Auxiliary: `set_qconfig_for_model` establishes the qconfig contract on a
whole module tree. -/
theorem set_qconfig_aux : ∀ m : QModule,
    ((set_qconfig_for_model m).namedList).all qconfigAssigned = true
  | .mk e q cs => by
      simp only [set_qconfig_for_model, QModule.namedList, List.all_cons,
        Bool.and_eq_true]
      constructor
      · cases e <;>
          simp [qconfigAssigned, QModule.qconfigOf, QModule.isEmbeddingOf]
      · exact set_qconfig_children_aux cs

/-- Auxiliary: the qconfig contract over a child list. -/
theorem set_qconfig_children_aux : ∀ cs : List (String × QModule),
    (QModule.namedListChildren (set_qconfig_for_children cs)).all qconfigAssigned
      = true
  | [] => rfl
  | (n, c) :: rest => by
      simp only [set_qconfig_for_children, QModule.namedListChildren,
        List.all_append, Bool.and_eq_true]
      exact ⟨set_qconfig_aux c, set_qconfig_children_aux rest⟩

end

/-- Claim C6: after `set_qconfig_for_model(model)`, every named submodule
carries a `qconfig`, equal to the weight-only embedding config exactly when
the submodule is an `nn.Embedding` instance and to the default fbgemm
quantization-aware-training config in every other case. -/
theorem set_qconfig_for_model_spec (m : QModule) :
    ((set_qconfig_for_model m).namedList).all qconfigAssigned = true :=
  set_qconfig_aux m

/-! ## Claim C4: LoRA forward pass -/

/-- Indexing a flattened rectangular batch: entry `b * S + s` of the
flattened list is entry `s` of row `b`. -/
theorem flatten_getElem {α : Type} (S : ℕ) :
    ∀ (x : List (List α)) (b s : ℕ) (row : List α),
      (∀ r ∈ x, r.length = S) → s < S → x[b]? = some row →
      x.flatten[b * S + s]? = row[s]?
  | [], b, s, row, _, _, hrow => by simp at hrow
  | r :: rest, 0, s, row, hrect, hs, hrow => by
      simp only [List.getElem?_cons_zero, Option.some.injEq] at hrow
      subst hrow
      have hlen : s < r.length := by
        rw [hrect r (by simp)]; exact hs
      simp only [List.flatten_cons, Nat.zero_mul, Nat.zero_add]
      exact List.getElem?_append_left hlen
  | r :: rest, Nat.succ b, s, row, hrect, hs, hrow => by
      simp only [List.getElem?_cons_succ] at hrow
      have hr : r.length = S := hrect r (by simp)
      have hidx : (b + 1) * S + s = r.length + (b * S + s) := by
        rw [hr]; ring
      rw [List.flatten_cons, hidx, List.getElem?_append_right (by omega)]
      have hsub : r.length + (b * S + s) - r.length = b * S + s := by omega
      rw [hsub]
      exact flatten_getElem S rest b s row (fun q hq => hrect q (by simp [hq])) hs
        hrow

/-- Zipping a list with its own image is a map. -/
theorem zipWith_map_same {α β γ : Type} (h : α → β → γ) (g : α → β) :
    ∀ l : List α, List.zipWith h l (l.map g) = l.map (fun v => h v (g v))
  | [] => rfl
  | a :: rest => by
      simp only [List.map_cons, List.zipWith_cons_cons]
      rw [zipWith_map_same h g rest]

/-- The total length of a rectangular batch. -/
theorem sum_lengths {α : Type} (S : ℕ) :
    ∀ x : List (List α), (∀ r ∈ x, r.length = S) →
      (x.map List.length).sum = x.length * S
  | [], _ => by simp
  | r :: rest, hrect => by
      simp only [List.map_cons, List.sum_cons, List.length_cons]
      rw [hrect r (by simp),
        sum_lengths S rest (fun q hq => hrect q (by simp [hq]))]
      ring

/-- Claim C4, amended: for rank `r > 0` and a rectangular 3-D input of shape
`(batch, seq, in)`, `LoRAAdapter.forward` returns, at flat row `b * seq + s`,
the wrapped layer's output at position `(b, s)` plus the low-rank update
`(lora_alpha / r) · lora_B · lora_A · x[b][s]` (dropout being the identity at
`lora_dropout = 0`); the result however is 2-dimensional, with
`batch * seq` rows — it does not keep the leading `(batch, seq)` shape of
the wrapped layer's output on `x` (see the counterexample). -/
theorem lora_adapter_forward_spec {r nIn nOut : ℕ} (lora_A : Fin r → Fin nIn → ℚ)
    (lora_B : Fin nOut → Fin r → ℚ) (lora_alpha : ℕ) (W : Fin nOut → Fin nIn → ℚ)
    (b : Option (Fin nOut → ℚ)) (x : List (List (Fin nIn → ℚ))) (S : ℕ)
    (_hr : 0 < r) (hrect : ∀ row ∈ x, row.length = S)
    (bi s : ℕ) (hs : s < S) (row : List (Fin nIn → ℚ)) (hrow : x[bi]? = some row)
    (v : Fin nIn → ℚ) (hv : row[s]? = some v) :
    (LoRAAdapter_forward_pos lora_A lora_B (LoRAAdapter_scaling lora_alpha r) W b
        x)[bi * S + s]? =
      some (fun oi => Flinear W b v oi +
        LoRAAdapter_scaling lora_alpha r *
          ∑ k, lora_B oi k * ∑ j, lora_A k j * v j) ∧
    (LoRAAdapter_forward_pos lora_A lora_B (LoRAAdapter_scaling lora_alpha r) W b
        x).length = x.length * S := by
  unfold LoRAAdapter_forward_pos
  rw [zipWith_map_same]
  constructor
  · rw [List.getElem?_map]
    have hflat := flatten_getElem S x bi s row hrect hs hrow
    rw [hflat, hv]
    rfl
  · rw [List.length_map, List.length_flatten, sum_lengths S x hrect]

/-- Claim C4, counterexample to the shape clause: on a `2 × 3` input the
forward pass returns `6` rows while the wrapped layer's output on the 3-D
input has leading dimension `2` — the leading `(batch, seq)` shape is not
kept. -/
theorem lora_adapter_forward_shape_cex :
    (@LoRAAdapter_forward_pos 1 1 1 (fun _ _ => 1) (fun _ _ => 1)
        (LoRAAdapter_scaling 1 1) (fun _ _ => 1) none c4_input).length ≠
      (@linear_forward_3d 1 1 (fun _ _ => 1) none c4_input).length := by
  decide

/-- Witness for claim C4: the amended statement evaluated on the `2 × 3`
all-ones instance at position `(1, 2)`. -/
theorem lora_adapter_forward_spec_witness :
    (@LoRAAdapter_forward_pos 1 1 1 (fun _ _ => 1) (fun _ _ => 1)
        (LoRAAdapter_scaling 1 1) (fun _ _ => 1) none c4_input)[1 * 3 + 2]? =
      some (fun oi => @Flinear 1 1 (fun _ _ => 1) none (fun _ => 1) oi +
        LoRAAdapter_scaling 1 1 *
          ∑ k : Fin 1, (fun (_ : Fin 1) (_ : Fin 1) => (1 : ℚ)) oi k *
            ∑ j : Fin 1, (fun (_ : Fin 1) (_ : Fin 1) => (1 : ℚ)) k j *
              (fun (_ : Fin 1) => (1 : ℚ)) j) ∧
    (@LoRAAdapter_forward_pos 1 1 1 (fun _ _ => 1) (fun _ _ => 1)
        (LoRAAdapter_scaling 1 1) (fun _ _ => 1) none c4_input).length =
      c4_input.length * 3 :=
  lora_adapter_forward_spec (fun _ _ => 1) (fun _ _ => 1) 1 (fun _ _ => 1) none
    c4_input 3 (by decide) (by decide) 1 2 (by decide)
    [fun _ => 1, fun _ => 1, fun _ => 1] rfl (fun _ => 1) rfl

/-! ## Claim C10: replace/get round trip -/

/-- After `setattr`, looking up the assigned name finds the new value. -/
theorem setChildList_lookup (a : String) (v : NNModule) :
    ∀ cs : List (String × NNModule),
      NNModule.attrLookup (NNModule.setChildList cs a v) a = some v
  | [] => by simp [NNModule.setChildList, NNModule.attrLookup]
  | (n, c) :: rest => by
      by_cases h : n = a
      · simp [NNModule.setChildList, NNModule.attrLookup, h]
      · simp only [NNModule.setChildList, NNModule.attrLookup, h, if_false]
        exact setChildList_lookup a v rest

/-- `getattr` after `setattr` on the same name. -/
theorem setattr_getattr (m : NNModule) (a : String) (v : NNModule) :
    (m.setattr a v).getattr a = some v := by
  cases m with
  | mk d cs => exact setChildList_lookup a v cs

/-- After a successful `replace_submodule`, `get_submodule` at the same path
returns the new module. -/
theorem replace_then_get (v : NNModule) :
    ∀ (p : List String) (m m' : NNModule),
      replace_submodule m p v = some m' → get_submodule m' p = some v
  | [], m, m', h => by simp [replace_submodule] at h
  | [a], m, m', h => by
      simp only [replace_submodule, Option.some.injEq] at h
      subst h
      simp [get_submodule, setattr_getattr]
  | a :: b :: rest, m, m', h => by
      simp only [replace_submodule, Option.bind_eq_some, Option.map_eq_some'] at h
      obtain ⟨c, hc, c2, hc2, hm'⟩ := h
      subst hm'
      simp only [get_submodule, setattr_getattr, Option.some_bind]
      exact replace_then_get v (b :: rest) c c2 hc2

/-- `replace_submodule` succeeds as soon as every proper prefix of the path
resolves (the final attribute need not exist: `setattr` creates it). -/
theorem replace_of_prefixes (v : NNModule) :
    ∀ (p : List String) (m : NNModule), p ≠ [] →
      (∀ i, i < p.length → (get_submodule m (List.take i p)).isSome) →
      ∃ m', replace_submodule m p v = some m'
  | [], _, hne, _ => absurd rfl hne
  | [a], m, _, _ => ⟨m.setattr a v, rfl⟩
  | a :: b :: rest, m, _, hpre => by
      have h1 : (get_submodule m (List.take 1 (a :: b :: rest))).isSome :=
        hpre 1 (by simp)
      obtain ⟨c, hc⟩ : ∃ c, m.getattr a = some c := by
        cases hgc : m.getattr a with
        | none => simp [get_submodule, hgc] at h1
        | some c => exact ⟨c, rfl⟩
      have hrec : ∀ i, i < (b :: rest).length →
          (get_submodule c (List.take i (b :: rest))).isSome := by
        intro i hi
        have h2 := hpre (i + 1) (by simpa using hi)
        simpa [get_submodule, List.take_succ_cons, hc] using h2
      obtain ⟨c2, hc2⟩ := replace_of_prefixes v (b :: rest) c (by simp) hrec
      exact ⟨m.setattr a c2, by simp [replace_submodule, hc, hc2]⟩

/-- Claim C10: for every model, every nonempty dotted path whose proper
prefixes (`p.take i`, `i < p.length`) all name existing attributes, and every
module, `replace_submodule` succeeds and `get_submodule` at that path then
returns exactly the new module. -/
theorem replace_get_submodule_roundtrip (model : NNModule) (p : List String)
    (new : NNModule) (hne : p ≠ [])
    (hpre : ∀ i, i < p.length → (get_submodule model (List.take i p)).isSome) :
    ∃ m', replace_submodule model p new = some m' ∧
      get_submodule m' p = some new := by
  obtain ⟨m', hm'⟩ := replace_of_prefixes new p model hne hpre
  exact ⟨m', hm', replace_then_get new p model m' hm'⟩

/-- Witness for claim C10: the round trip evaluated on a concrete two-level
model at path `a.c` (whose final attribute is freshly created). -/
theorem replace_get_submodule_roundtrip_witness :
    ∃ m', replace_submodule c10_model ["a", "c"] (.mk 9 []) = some m' ∧
      get_submodule m' ["a", "c"] = some (.mk 9 []) :=
  replace_get_submodule_roundtrip c10_model ["a", "c"] (.mk 9 []) (by decide)
    (by decide)

/-! ## Path and preservation lemmas for `inject_adapter` -/

/-- The dotted name of a path is a character-level prefix of the dotted name
of any extension (descendant submodules have the ancestor's dotted name as a
prefix). -/
theorem dotted_data_ext :
    ∀ (q r : List String), (dottedName q).data <+: (dottedName (q ++ r)).data
  | [], r => by simp [dottedName]
  | [a], r => by
      cases r with
      | nil => simp
      | cons r0 rs =>
          show a.data <+: (dottedName (a :: r0 :: rs)).data
          simp only [dottedName, String.data_append]
          exact (List.prefix_append a.data ".".data).trans
            (List.prefix_append _ _)
  | a :: b :: q', r => by
      show (a ++ "." ++ dottedName (b :: q')).data <+:
        (a ++ "." ++ dottedName (b :: q' ++ r)).data
      simp only [String.data_append]
      rw [List.append_assoc, List.append_assoc]
      exact (List.prefix_append_right_inj a.data).mpr
        ((List.prefix_append_right_inj ".".data).mpr (dotted_data_ext (b :: q') r))

/-- Substring matching is monotone along path extension: a key contained in
an ancestor's dotted name is contained in every descendant's dotted name. -/
theorem strContains_mono {q p : List String} {k : String}
    (h : strContains (dottedName q) k = true) (hqp : q <+: p) :
    strContains (dottedName p) k = true := by
  obtain ⟨t, rfl⟩ := hqp
  have h1 : k.data <:+: (dottedName q).data := of_decide_eq_true h
  exact decide_eq_true (h1.trans (dotted_data_ext q t).isInfix)

/-- Only the empty key is contained in the root's empty dotted name. -/
theorem strContains_nil_key {k : String}
    (h : strContains (dottedName []) k = true) : k = "" := by
  have h1 : k.data <:+: ("" : String).data := of_decide_eq_true h
  have h2 : k.data = [] := by simpa using h1
  exact String.ext h2

/-- A matched path's dotted name contains the key. -/
theorem match_submodules_contains {m : NNModule} {k : String}
    {p : List String} (h : p ∈ match_submodules m k) :
    strContains (dottedName p) k = true := by
  unfold match_submodules at h
  obtain ⟨⟨p', sub⟩, hmem, rfl⟩ := List.mem_map.mp h
  exact (List.mem_filter.mp hmem).2

/-- A matched path carries a named submodule. -/
theorem match_submodules_named {m : NNModule} {k : String}
    {p : List String} (h : p ∈ match_submodules m k) :
    ∃ sub, (p, sub) ∈ NNModule.namedPaths m := by
  unfold match_submodules at h
  obtain ⟨⟨p', sub⟩, hmem, rfl⟩ := List.mem_map.mp h
  exact ⟨sub, (List.mem_filter.mp hmem).1⟩

/-- A nonempty key never matches the root path. -/
theorem match_submodules_ne_nil {m : NNModule} {k : String}
    (hk : k ≠ "") {p : List String} (h : p ∈ match_submodules m k) : p ≠ [] := by
  intro hnil
  subst hnil
  exact hk (strContains_nil_key (match_submodules_contains h))

/-- `setattr` leaves lookups of other names unchanged. -/
theorem setChildList_lookup_ne {n a : String} (hne : n ≠ a) (v : NNModule) :
    ∀ cs : List (String × NNModule),
      NNModule.attrLookup (NNModule.setChildList cs a v) n =
        NNModule.attrLookup cs n
  | [] => by simp [NNModule.setChildList, NNModule.attrLookup, Ne.symm hne]
  | (n', c) :: rest => by
      by_cases h : n' = a
      · subst h
        simp [NNModule.setChildList, NNModule.attrLookup, Ne.symm hne, hne]
      · simp only [NNModule.setChildList, NNModule.attrLookup, h, if_false]
        by_cases h2 : n' = n
        · simp [h2]
        · simp only [h2, if_false]
          exact setChildList_lookup_ne hne v rest

/-- `getattr` of another name after `setattr`. -/
theorem setattr_getattr_ne {n a : String} (hne : n ≠ a) (m v : NNModule) :
    (m.setattr a v).getattr n = m.getattr n := by
  cases m with
  | mk d cs => exact setChildList_lookup_ne hne v cs

/-- `setattr` does not touch the module's own payload. -/
theorem setattr_dataOf (m : NNModule) (a : String) (v : NNModule) :
    (m.setattr a v).dataOf = m.dataOf := by
  cases m with
  | mk d cs => rfl

/-- `replace_submodule` succeeds whenever the whole path resolves. -/
theorem replace_of_get (v : NNModule) :
    ∀ (p : List String) (m : NNModule), p ≠ [] →
      (get_submodule m p).isSome →
      ∃ m', replace_submodule m p v = some m'
  | [], _, hne, _ => absurd rfl hne
  | [a], m, _, _ => ⟨m.setattr a v, rfl⟩
  | a :: b :: rest, m, _, hsome => by
      obtain ⟨c, hc⟩ : ∃ c, m.getattr a = some c := by
        cases hgc : m.getattr a with
        | none => simp [get_submodule, hgc] at hsome
        | some c => exact ⟨c, rfl⟩
      have hrec : (get_submodule c (b :: rest)).isSome := by
        simpa [get_submodule, hc] using hsome
      obtain ⟨c2, hc2⟩ := replace_of_get v (b :: rest) c (by simp) hrec
      exact ⟨m.setattr a c2, by simp [replace_submodule, hc, hc2]⟩

/-- Replacing at `q` preserves resolution and the module's own payload at
every path that `q` does not dominate (every path of which `q` is not a
prefix). -/
theorem replace_preserve_data (v : NNModule) :
    ∀ (q : List String) (m m' : NNModule),
      replace_submodule m q v = some m' →
      ∀ p : List String, ¬ q <+: p →
      (get_submodule m' p).map NNModule.dataOf =
        (get_submodule m p).map NNModule.dataOf
  | [], m, m', h => by simp [replace_submodule] at h
  | [a], m, m', h => by
      simp only [replace_submodule, Option.some.injEq] at h
      subst h
      intro p hp
      cases p with
      | nil => simp [get_submodule, setattr_dataOf]
      | cons x p' =>
          by_cases hx : x = a
          · subst hx
            exact absurd ⟨p', rfl⟩ hp
          · simp [get_submodule, setattr_getattr_ne hx]
  | a :: b :: rest, m, m', h => by
      simp only [replace_submodule, Option.bind_eq_some, Option.map_eq_some'] at h
      obtain ⟨c, hc, c2, hc2, hm'⟩ := h
      subst hm'
      intro p hp
      cases p with
      | nil => simp [get_submodule, setattr_dataOf]
      | cons x p' =>
          by_cases hx : x = a
          · subst hx
            have hp' : ¬ (b :: rest) <+: p' := by
              intro hpre
              exact hp (List.cons_prefix_cons.mpr ⟨rfl, hpre⟩)
            simp only [get_submodule, setattr_getattr, hc, Option.some_bind]
            exact replace_preserve_data v (b :: rest) c c2 hc2 p' hp'
          · simp [get_submodule, setattr_getattr_ne hx]

/-- Replacing at `q` leaves every path incomparable with `q` entirely
unchanged. -/
theorem replace_preserve_incomp (v : NNModule) :
    ∀ (q : List String) (m m' : NNModule),
      replace_submodule m q v = some m' →
      ∀ p : List String, ¬ q <+: p → ¬ p <+: q →
      get_submodule m' p = get_submodule m p
  | [], m, m', h => by simp [replace_submodule] at h
  | [a], m, m', h => by
      simp only [replace_submodule, Option.some.injEq] at h
      subst h
      intro p hqp hpq
      cases p with
      | nil => exact absurd List.nil_prefix hpq
      | cons x p' =>
          by_cases hx : x = a
          · subst hx
            exact absurd ⟨p', rfl⟩ hqp
          · simp [get_submodule, setattr_getattr_ne hx]
  | a :: b :: rest, m, m', h => by
      simp only [replace_submodule, Option.bind_eq_some, Option.map_eq_some'] at h
      obtain ⟨c, hc, c2, hc2, hm'⟩ := h
      subst hm'
      intro p hqp hpq
      cases p with
      | nil => exact absurd List.nil_prefix hpq
      | cons x p' =>
          by_cases hx : x = a
          · subst hx
            have hq' : ¬ (b :: rest) <+: p' := by
              intro hpre
              exact hqp (List.cons_prefix_cons.mpr ⟨rfl, hpre⟩)
            have hp' : ¬ p' <+: (b :: rest) := by
              intro hpre
              exact hpq (List.cons_prefix_cons.mpr ⟨rfl, hpre⟩)
            simp only [get_submodule, setattr_getattr, hc, Option.some_bind]
            exact replace_preserve_incomp v (b :: rest) c c2 hc2 p' hq' hp'
          · simp [get_submodule, setattr_getattr_ne hx]

/-- Incomparability is symmetric. -/
theorem pathIncomp_symm {p q : List String} (h : PathIncomp p q) :
    PathIncomp q p :=
  ⟨h.2, h.1⟩

/-- Incomparable paths are distinct. -/
theorem pathIncomp_ne {p q : List String} (h : PathIncomp p q) : p ≠ q := by
  intro heq
  subst heq
  exact h.1 (List.prefix_refl p)

/-! ## Claim C5: adapter injection touches only matching paths -/

/-- Every replacement the inner loop performs happens at a path whose dotted
name contains the key, so paths whose dotted name does not contain the key
keep their resolution and payload. -/
theorem inject_fold_frame (f : NNModule → NNModule) (k : String) :
    ∀ (ps : List (List String)) (m : NNModule) (pr : List (List String))
      (m2 : NNModule) (pr2 : List (List String)),
      (∀ q ∈ ps, strContains (dottedName q) k = true) →
      inject_fold f m ps pr = some (m2, pr2) →
      ∀ p, strContains (dottedName p) k = false →
      (get_submodule m2 p).map NNModule.dataOf =
        (get_submodule m p).map NNModule.dataOf
  | [], m, pr, m2, pr2, _, h, p, hp => by
      simp only [inject_fold, Option.some.injEq, Prod.mk.injEq] at h
      rw [h.1]
  | q :: rest, m, pr, m2, pr2, hall, h, p, hp => by
      rw [inject_fold] at h
      by_cases hmem : q ∈ pr
      · rw [if_pos hmem] at h
        exact inject_fold_frame f k rest m pr m2 pr2
          (fun q' hq' => hall q' (List.mem_cons_of_mem q hq')) h p hp
      · rw [if_neg hmem] at h
        cases hget : get_submodule m q with
        | none => rw [hget] at h; exact absurd h (by simp)
        | some cur =>
            simp only [hget] at h
            cases hrep : replace_submodule m q (f cur) with
            | none => exact absurd h (by simp [hrep])
            | some m1 =>
                simp only [hrep] at h
                have hqp : ¬ q <+: p := by
                  intro hpre
                  have hcp := strContains_mono
                    (hall q (List.mem_cons_self q rest)) hpre
                  rw [hp] at hcp
                  exact Bool.false_ne_true hcp
                have hstep := replace_preserve_data (f cur) q m m1 hrep p hqp
                have hrec := inject_fold_frame f k rest m1 (q :: pr) m2 pr2
                  (fun q' hq' => hall q' (List.mem_cons_of_mem q hq')) h p hp
                exact hrec.trans hstep

/-- The outer loop over the keys preserves resolution and payload at every
path whose dotted name contains none of the keys. -/
theorem inject_go_frame (f : NNModule → NNModule) :
    ∀ (ks : List String) (m : NNModule) (pr : List (List String))
      (m2 : NNModule),
      inject_go f m ks pr = some m2 →
      ∀ p, (∀ k ∈ ks, strContains (dottedName p) k = false) →
      (get_submodule m2 p).map NNModule.dataOf =
        (get_submodule m p).map NNModule.dataOf
  | [], m, pr, m2, h, p, hp => by
      simp only [inject_go, Option.some.injEq] at h
      rw [h]
  | k :: ks, m, pr, m2, h, p, hp => by
      rw [inject_go] at h
      cases hfold : inject_fold f m (match_submodules m k) pr with
      | none => rw [hfold] at h; exact absurd h (by simp)
      | some mpr =>
          rw [hfold] at h
          have hstep := inject_fold_frame f k (match_submodules m k) m pr
            mpr.1 mpr.2 (fun q hq => match_submodules_contains hq)
            (by rw [hfold]) p (hp k (List.mem_cons_self k ks))
          have hrec := inject_go_frame f ks mpr.1 mpr.2 m2 h p
            (fun k' hk' => hp k' (List.mem_cons_of_mem k hk'))
          exact hrec.trans hstep

/-- Claim C5: a submodule path whose dotted name contains none of the keys is
never reassigned by `inject_adapter` — on a successful run it still resolves,
to a module with unchanged payload (its own parameters). -/
theorem inject_adapter_frame (model : NNModule) (keys : List String)
    (adapter_fn : NNModule → NNModule) (m' : NNModule)
    (h : inject_adapter model keys adapter_fn = some m') (p : List String)
    (hp : ∀ k ∈ keys, strContains (dottedName p) k = false) :
    (get_submodule m' p).map NNModule.dataOf =
      (get_submodule model p).map NNModule.dataOf :=
  inject_go_frame adapter_fn keys model [] m' h p hp

/-- Witness for claim C5: injecting for key `"k"` into a concrete model (the
call succeeds, by `rfl`) leaves the non-matching submodule `b` resolvable
with unchanged payload. -/
theorem inject_adapter_frame_witness :
    (get_submodule c5_result ["b"]).map NNModule.dataOf =
      (get_submodule c5_model ["b"]).map NNModule.dataOf ∧
    inject_adapter c5_model ["k"] wrap_adapter = some c5_result :=
  ⟨inject_adapter_frame c5_model ["k"] wrap_adapter c5_result rfl ["b"]
    (by decide), rfl⟩

/-! ## Claim C2: what `inject_adapter` does -/

/-- A successful lookup name occurs among the child names. -/
theorem attrLookup_mem_names {a : String} {c : NNModule} :
    ∀ cs : List (String × NNModule),
      NNModule.attrLookup cs a = some c → a ∈ cs.map Prod.fst
  | [], h => by simp [NNModule.attrLookup] at h
  | (n, c') :: rest, h => by
      by_cases hn : n = a
      · subst hn; simp
      · simp only [NNModule.attrLookup, hn, if_false] at h
        simp only [List.map_cons, List.mem_cons]
        exact Or.inr (attrLookup_mem_names rest h)

/-- With distinct child names, `getattr` finds any registered child. -/
theorem attrLookup_of_mem_nodup {n : String} {c : NNModule} :
    ∀ cs : List (String × NNModule),
      (cs.map Prod.fst).Nodup → (n, c) ∈ cs →
      NNModule.attrLookup cs n = some c
  | [], _, hmem => by simp at hmem
  | (n0, c0) :: rest, hnodup, hmem => by
      rcases List.mem_cons.mp hmem with heq | htail
      · rw [← heq]
        simp [NNModule.attrLookup]
      · have hrec := attrLookup_of_mem_nodup rest
          (List.nodup_cons.mp (by simpa using hnodup)).2 htail
        have hn0 : n0 ≠ n := by
          intro heq
          subst heq
          exact (List.nodup_cons.mp (by simpa using hnodup)).1
            (attrLookup_mem_names rest hrec)
        simp only [NNModule.attrLookup, hn0, if_false]
        exact hrec

/-- Splitting `wfB` at a node. -/
theorem wfB_node {d : ℕ} {cs : List (String × NNModule)}
    (h : NNModule.wfB (.mk d cs) = true) :
    (cs.map Prod.fst).Nodup ∧ NNModule.wfListB cs = true := by
  rw [NNModule.wfB, Bool.and_eq_true, decide_eq_true_eq] at h
  exact h

/-- Splitting `wfListB` at a cons. -/
theorem wfListB_cons {n : String} {c : NNModule}
    {rest : List (String × NNModule)}
    (h : NNModule.wfListB ((n, c) :: rest) = true) :
    NNModule.wfB c = true ∧ NNModule.wfListB rest = true := by
  rw [NNModule.wfListB, Bool.and_eq_true] at h
  exact h

mutual

/-- On a well-formed model, every named submodule is reachable by
`get_submodule` at its enumerated path. -/
theorem namedPaths_get : ∀ (m : NNModule), NNModule.wfB m = true →
    ∀ p sub, (p, sub) ∈ NNModule.namedPaths m → get_submodule m p = some sub
  | .mk d cs => by
      intro hwf p sub hmem
      rw [NNModule.namedPaths] at hmem
      rcases List.mem_cons.mp hmem with heq | htail
      · injection heq with h1 h2
        subst h1; subst h2
        rfl
      · obtain ⟨n, c, p', rfl, hlk, hget⟩ :=
          namedPathsChildren_get cs (wfB_node hwf).1 (wfB_node hwf).2 p sub htail
        simp [get_submodule, NNModule.getattr, hlk, hget]

/-- On a well-formed child list, every enumerated submodule path starts with
a registered child name and continues inside that child. -/
theorem namedPathsChildren_get : ∀ (cs : List (String × NNModule)),
    (cs.map Prod.fst).Nodup → NNModule.wfListB cs = true →
    ∀ p sub, (p, sub) ∈ NNModule.namedPathsChildren cs →
    ∃ n c p', p = n :: p' ∧ NNModule.attrLookup cs n = some c ∧
      get_submodule c p' = some sub
  | [] => by
      intro _ _ p sub hmem
      simp [NNModule.namedPathsChildren] at hmem
  | (n0, c0) :: rest => by
      intro hnodup hwfl p sub hmem
      rw [NNModule.namedPathsChildren] at hmem
      rcases List.mem_append.mp hmem with hmap | hrest
      · obtain ⟨⟨p', sub'⟩, hmem', heq⟩ := List.mem_map.mp hmap
        injection heq with h1 h2
        subst h1; subst h2
        refine ⟨n0, c0, p', rfl, by simp [NNModule.attrLookup], ?_⟩
        exact namedPaths_get c0 (wfListB_cons hwfl).1 p' sub' hmem'
      · obtain ⟨n, c, p', rfl, hlk, hget⟩ :=
          namedPathsChildren_get rest
            (List.nodup_cons.mp (by simpa using hnodup)).2
            (wfListB_cons hwfl).2 p sub hrest
        have hn0 : n0 ≠ n := by
          intro heqn
          subst heqn
          exact (List.nodup_cons.mp (by simpa using hnodup)).1
            (attrLookup_mem_names rest hlk)
        exact ⟨n, c, p', rfl, by simp [NNModule.attrLookup, hn0, hlk], hget⟩

end

/-- Soundness of the inner loop on pairwise-incomparable, fresh, nonempty,
resolving paths: it succeeds, installs the adapter result at every listed
path, and leaves paths incomparable with all listed ones unchanged. -/
theorem inject_fold_sound (f : NNModule → NNModule) :
    ∀ (ps : List (List String)) (m : NNModule) (pr : List (List String)),
      List.Pairwise PathIncomp ps →
      (∀ p ∈ ps, p ∉ pr) →
      (∀ p ∈ ps, p ≠ []) →
      (∀ p ∈ ps, (get_submodule m p).isSome) →
      ∃ m2 pr2, inject_fold f m ps pr = some (m2, pr2) ∧
        (∀ p ∈ ps, ∃ old, get_submodule m p = some old ∧
          get_submodule m2 p = some (f old)) ∧
        (∀ q, (∀ p ∈ ps, PathIncomp p q) →
          get_submodule m2 q = get_submodule m q)
  | [], m, pr, _, _, _, _ => ⟨m, pr, rfl, by simp, fun q _ => rfl⟩
  | p0 :: rest, m, pr, hpw, hnpr, hnn, hsome => by
      have hp0pr : p0 ∉ pr := hnpr p0 (List.mem_cons_self p0 rest)
      obtain ⟨old, hold⟩ : ∃ old, get_submodule m p0 = some old := by
        cases hg : get_submodule m p0 with
        | none =>
            have := hsome p0 (List.mem_cons_self p0 rest)
            rw [hg] at this
            exact absurd this (by simp)
        | some o => exact ⟨o, rfl⟩
      obtain ⟨m1, hm1⟩ := replace_of_get (f old) p0 m
        (hnn p0 (List.mem_cons_self p0 rest)) (by rw [hold]; rfl)
      have hIncompAll : ∀ q ∈ rest, PathIncomp p0 q :=
        (List.pairwise_cons.mp hpw).1
      have hPairRest := (List.pairwise_cons.mp hpw).2
      have hpreserve : ∀ p ∈ rest, get_submodule m1 p = get_submodule m p :=
        fun p hp => replace_preserve_incomp (f old) p0 m m1 hm1 p
          (hIncompAll p hp).1 (hIncompAll p hp).2
      obtain ⟨m2, pr2, hfold, hrepl, hframe⟩ :=
        inject_fold_sound f rest m1 (p0 :: pr) hPairRest
          (by
            intro p hp hmem
            rcases List.mem_cons.mp hmem with heq | hmem'
            · exact pathIncomp_ne (hIncompAll p hp) heq.symm
            · exact hnpr p (List.mem_cons_of_mem p0 hp) hmem')
          (fun p hp => hnn p (List.mem_cons_of_mem p0 hp))
          (fun p hp => by
            rw [hpreserve p hp]
            exact hsome p (List.mem_cons_of_mem p0 hp))
      refine ⟨m2, pr2, ?_, ?_, ?_⟩
      · rw [inject_fold, if_neg hp0pr, hold]
        simp only [hm1]
        exact hfold
      · intro p hp
        rcases List.mem_cons.mp hp with heq | hp'
        · subst heq
          refine ⟨old, hold, ?_⟩
          rw [hframe p (fun q hq => pathIncomp_symm (hIncompAll q hq))]
          exact replace_then_get (f old) p m m1 hm1
        · obtain ⟨old', h1, h2⟩ := hrepl p hp'
          rw [hpreserve p hp'] at h1
          exact ⟨old', h1, h2⟩
      · intro q hq
        have h1 := hframe q (fun p hp => hq p (List.mem_cons_of_mem p0 hp))
        have h2 := replace_preserve_incomp (f old) p0 m m1 hm1 q
          (hq p0 (List.mem_cons_self p0 rest)).1
          (hq p0 (List.mem_cons_self p0 rest)).2
        exact h1.trans h2

/-- Claim C2, amended (single nonempty key, pairwise-incomparable matches):
on a well-formed model, `inject_adapter(model, [k], adapter_fn)` keeps
exactly the enumerated submodule paths whose dotted name contains `k`, and —
when no matched path is a proper prefix of another — succeeds and leaves, at
every matched path, `adapter_fn` applied to the module previously there. -/
theorem inject_adapter_single_key_spec (model : NNModule) (k : String)
    (adapter_fn : NNModule → NNModule) (hwf : NNModule.wfB model = true)
    (hk : k ≠ "")
    (hinc : List.Pairwise PathIncomp (match_submodules model k)) :
    ∃ m', inject_adapter model [k] adapter_fn = some m' ∧
      ∀ p ∈ match_submodules model k, ∃ old,
        get_submodule model p = some old ∧
        get_submodule m' p = some (adapter_fn old) := by
  have hsome : ∀ p ∈ match_submodules model k,
      (get_submodule model p).isSome := by
    intro p hp
    obtain ⟨sub, hsub⟩ := match_submodules_named hp
    rw [namedPaths_get model hwf p sub hsub]
    rfl
  obtain ⟨m2, pr2, hfold, hrepl, _⟩ :=
    inject_fold_sound adapter_fn (match_submodules model k) model [] hinc
      (by simp) (fun p hp => match_submodules_ne_nil hk hp) hsome
  refine ⟨m2, ?_, hrepl⟩
  show inject_go adapter_fn model [k] [] = some m2
  rw [inject_go]
  simp only [hfold]
  rfl

/-- Claim C2, counterexample: with nested matches (`a` and `a.a` both match
key `"a"`), replacing `a` by a wrapper first makes the later matched path
`a.a` unresolvable, so the call raises `AttributeError` (returns `none`)
instead of producing a model carrying the replacements. -/
theorem inject_adapter_overlap_cex :
    inject_adapter c2_model ["a"] wrap_adapter = none ∧
    ["a", "a"] ∈ match_submodules c2_model "a" :=
  ⟨rfl, by decide⟩

/-- Witness for claim C2: the amended statement evaluated on a model with two
incomparable matches of the key `"ka"`. -/
theorem inject_adapter_single_key_spec_witness :
    ∃ m', inject_adapter c2w_model ["ka"] wrap_adapter = some m' ∧
      ∀ p ∈ match_submodules c2w_model "ka", ∃ old,
        get_submodule c2w_model p = some old ∧
        get_submodule m' p = some (wrap_adapter old) :=
  inject_adapter_single_key_spec c2w_model "ka" wrap_adapter (by decide)
    (by decide) (by decide)

/-! ## Claim C7: no exception is caught or transformed -/

/-- Any error escaping the inner injection loop is either the
`AttributeError` of a failed attribute walk or an exception value that some
adapter call produced, unchanged. -/
theorem inject_foldE_error {ε : Type} (f : NNModule → Except ε NNModule)
    (attrErr : ε) :
    ∀ (ps : List (List String)) (m : NNModule) (pr : List (List String))
      (e : ε), inject_foldE f attrErr m ps pr = .error e →
      e = attrErr ∨ ∃ mm, f mm = .error e
  | [], m, pr, e, h => by simp [inject_foldE] at h
  | p :: ps, m, pr, e, h => by
      rw [inject_foldE] at h
      by_cases hmem : p ∈ pr
      · rw [if_pos hmem] at h
        exact inject_foldE_error f attrErr ps m pr e h
      · rw [if_neg hmem] at h
        cases hget : get_submodule m p with
        | none =>
            rw [hget] at h
            injection h with h1
            exact Or.inl h1.symm
        | some cur =>
            simp only [hget] at h
            cases hf : f cur with
            | error e2 =>
                simp only [hf] at h
                injection h with h1
                exact Or.inr ⟨cur, by rw [hf, h1]⟩
            | ok nm =>
                simp only [hf] at h
                cases hrep : replace_submodule m p nm with
                | none =>
                    simp only [hrep] at h
                    injection h with h1
                    exact Or.inl h1.symm
                | some m2 =>
                    simp only [hrep] at h
                    exact inject_foldE_error f attrErr ps m2 (p :: pr) e h

/-- Error origin for the outer injection loop. -/
theorem inject_goE_error {ε : Type} (f : NNModule → Except ε NNModule)
    (attrErr : ε) :
    ∀ (ks : List String) (m : NNModule) (pr : List (List String)) (e : ε),
      inject_goE f attrErr m ks pr = .error e →
      e = attrErr ∨ ∃ mm, f mm = .error e
  | [], m, pr, e, h => by simp [inject_goE] at h
  | k :: ks, m, pr, e, h => by
      rw [inject_goE] at h
      cases hfold : inject_foldE f attrErr m (match_submodules m k) pr with
      | error e2 =>
          rw [hfold] at h
          injection h with h1
          exact h1 ▸ inject_foldE_error f attrErr (match_submodules m k) m pr
            e2 hfold
      | ok mpr =>
          rw [hfold] at h
          exact inject_goE_error f attrErr ks mpr.1 mpr.2 e h

/-- Error origin for the perplexity loop: the only raising callee is the
model forward pass. -/
theorem calc_perplexity_loop_error {ε : Type}
    (modelFn : List ℤ → List ℤ → Except ε ℚ) (enc : List ℤ) (maxl : ℕ) :
    ∀ (iters : List ℕ) (prev : ℕ) (nlls : List ℚ) (e : ε),
      calc_perplexity_loop modelFn enc maxl iters prev nlls = .error e →
      ∃ inp tgt, modelFn inp tgt = .error e
  | [], prev, nlls, e, h => by simp [calc_perplexity_loop] at h
  | begin_loc :: rest, prev, nlls, e, h => by
      rw [calc_perplexity_loop] at h
      cases hm : modelFn ((enc.drop begin_loc).take
          (min (begin_loc + maxl) enc.length - begin_loc))
          (((((enc.drop begin_loc).take
              (min (begin_loc + maxl) enc.length - begin_loc)).take
            (((enc.drop begin_loc).take
              (min (begin_loc + maxl) enc.length - begin_loc)).length -
              (min (begin_loc + maxl) enc.length - prev))).map
            (fun _ => (-100 : ℤ))) ++
            ((enc.drop begin_loc).take
              (min (begin_loc + maxl) enc.length - begin_loc)).drop
              (((enc.drop begin_loc).take
                (min (begin_loc + maxl) enc.length - begin_loc)).length -
                (min (begin_loc + maxl) enc.length - prev))) with
      | error e2 =>
          simp only [hm] at h
          injection h with h1
          exact ⟨_, _, h1 ▸ hm⟩
      | ok nll =>
          simp only [hm] at h
          by_cases hend : min (begin_loc + maxl) enc.length = enc.length
          · rw [if_pos hend] at h
            exact absurd h (by simp)
          · rw [if_neg hend] at h
            exact calc_perplexity_loop_error modelFn enc maxl rest
              (min (begin_loc + maxl) enc.length) (nlls ++ [nll]) e h

/-- Error origin for one training epoch. -/
theorem train_model_epoch_error {ε β : Type} (step : β → Except ε ℚ) :
    ∀ (batches : List β) (total : ℚ) (e : ε),
      train_model_epoch step batches total = .error e →
      ∃ b, step b = .error e
  | [], total, e, h => by simp [train_model_epoch] at h
  | b :: rest, total, e, h => by
      rw [train_model_epoch] at h
      cases hs : step b with
      | error e2 =>
          rw [hs] at h
          injection h with h1
          exact ⟨b, h1 ▸ hs⟩
      | ok loss =>
          rw [hs] at h
          exact train_model_epoch_error step rest (total + loss) e h

/-- Error origin across the training epochs. -/
theorem train_model_error {ε β : Type} (step : β → Except ε ℚ)
    (batches : List β) :
    ∀ (n : ℕ) (e : ε), train_model step batches n = .error e →
      ∃ b, step b = .error e
  | 0, e, h => by simp [train_model] at h
  | Nat.succ n, e, h => by
      rw [train_model] at h
      cases he : train_model_epoch step batches 0 with
      | error e2 =>
          rw [he] at h
          injection h with h1
          exact h1 ▸ train_model_epoch_error step batches 0 e2 he
      | ok total =>
          rw [he] at h
          cases hr : train_model step batches n with
          | error e2 =>
              rw [hr] at h
              injection h with h1
              exact h1 ▸ train_model_error step batches n e2 hr
          | ok rest => rw [hr] at h; exact absurd h (by simp)

/-- Claim C7: the notebook functions install no exception handler — any
error value returned by `inject_adapter`, `calc_perplexity` or `train_model`
in the exception monad is exactly an exception a callee raised (for
`inject_adapter`, either the `AttributeError` of the attribute walk or the
adapter's own exception), propagated unchanged to the caller. -/
theorem no_exception_handling :
    (∀ (ε : Type) (model : NNModule) (keys : List String)
      (adapter_fn : NNModule → Except ε NNModule) (attrErr e : ε),
      inject_adapterE model keys adapter_fn attrErr = .error e →
      e = attrErr ∨ ∃ mm, adapter_fn mm = .error e) ∧
    (∀ (ε : Type) (modelFn : List ℤ → List ℤ → Except ε ℚ)
      (expMean : List ℚ → ℚ) (enc : List ℤ) (stride : ℕ) (e : ε),
      calc_perplexity modelFn expMean enc stride = .error e →
      ∃ inp tgt, modelFn inp tgt = .error e) ∧
    (∀ (ε β : Type) (step : β → Except ε ℚ) (batches : List β) (n : ℕ) (e : ε),
      train_model step batches n = .error e → ∃ b, step b = .error e) := by
  refine ⟨?_, ?_, ?_⟩
  · intro ε model keys adapter_fn attrErr e h
    exact inject_goE_error adapter_fn attrErr keys model [] e h
  · intro ε modelFn expMean enc stride e h
    rw [calc_perplexity] at h
    cases hl : calc_perplexity_loop modelFn enc 1024
        (strideRange enc.length stride) 0 [] with
    | error e2 =>
        rw [hl] at h
        injection h with h1
        exact h1 ▸ calc_perplexity_loop_error modelFn enc 1024 _ 0 [] e2 hl
    | ok nlls => rw [hl] at h; exact absurd h (by simp)
  · intro ε β step batches n e h
    exact train_model_error step batches n e h

/-- Witness for claim C7: all three propagation statements applied to
concrete failing runs. -/
theorem no_exception_handling_witness :
    ((0 : ℕ) = 0 ∨ ∃ mm,
      (fun m => (Except.ok (wrap_adapter m) : Except ℕ NNModule)) mm =
        .error 0) ∧
    (∃ inp tgt,
      (fun (_ : List ℤ) (_ : List ℤ) => (Except.error 7 : Except ℕ ℚ)) inp tgt =
        .error 7) ∧
    (∃ b, (fun (_ : ℕ) => (Except.error 5 : Except ℕ ℚ)) b = .error 5) :=
  ⟨no_exception_handling.1 ℕ c2_model ["a"]
      (fun m => .ok (wrap_adapter m)) 0 0 rfl,
   no_exception_handling.2.1 ℕ (fun _ _ => .error 7) (fun _ => 0) [1] 1 7 rfl,
   no_exception_handling.2.2 ℕ ℕ (fun _ => .error 5) [0] 1 5 rfl⟩
